import Mathlib

/-!
Verification of the twiceredis client (src/twiceredis/client.py) against its
natural-language specification.

The development shallowly embeds the parts of the code the claims are about:

* the reliable-delivery `Listener` (startup recovery in `__init__`,
  `_call_handler`, `get_message`, `listen`) as pure functions over a
  `RedisState` holding the watched list (`queue`) and the processing list
  (`processing`), producing traces of the store operations and handler
  invocations they perform;
* the atomic store operations the listener uses, as a guarded transition
  system (`LOp` / `applyOp`) used to state the pop-and-push atomicity
  invariant over arbitrary interleavings;
* `DisconnectingSentinel` (discover_master / discover_slaves /
  disconnect_sentinels / filter_slaves) over an abstract sentinel-socket
  state, with the inherited discovery call an explicit parameter;
* `DisconnectRedis.disconnect` / `TwiceRedis.disconnect` over connection-pool
  states;
* the `TwiceRedis.__init__` treatment of the caller-supplied sentinel list
  (copy, then in-place shuffle of the copy) over an explicit reference heap.

Redis list convention: a Lean list `[a, b, c]` stands for the Redis list with
head `a` and tail `c`; RPOPLPUSH pops the tail of the source and pushes it at
the head of the destination, LINDEX -1 reads the tail, LREM with count -1
removes one matching element scanning from the tail.
-/

namespace Twiceredis

/-- Message payloads are opaque byte strings; the empty string is the falsy
payload (Python `if message:` is false exactly on the empty byte string and
on the absent-message None, which we keep separate via `Option`). -/
abbrev Msg := String

/-- Python truthiness of a present message payload. -/
def truthy (m : Msg) : Bool := m ≠ ""

/-- Tail element of a Redis list (`LINDEX key -1`), without removal. -/
def lastElem : List Msg → Option Msg
  | [] => none
  | [x] => some x
  | _ :: x :: xs => lastElem (x :: xs)

/-- Remove the first occurrence of `m`, scanning from the head. -/
def eraseFirst (m : Msg) : List Msg → List Msg
  | [] => []
  | x :: xs => if x = m then xs else x :: eraseFirst m xs

/-- `LREM key -1 m`: remove one element equal to `m`, scanning from the
tail towards the head. -/
def lremLast (l : List Msg) (m : Msg) : List Msg :=
  (eraseFirst m l.reverse).reverse

/-- The store state the listener touches: the watched list `lijst`
(`queue`) and the processing list `lijst + processing_suffix`
(`processing`). -/
structure RedisState where
  queue : List Msg
  processing : List Msg
deriving DecidableEq

/-- Observable events of a listener run: the store calls it issues (with
their results) and the handler invocations, in program order.  `handler m r`
records an invocation of the user handler on `m` returning `r` (`none` when
the handler raised); `terror` records a store call that raised the transport
error `TwiceRedis.generic_error`. -/
inductive REvent (ρ : Type) where
  | popPush (res : Option Msg)
  | bPopPush (timeout : Nat) (res : Option Msg)
  | peek (res : Option Msg)
  | lrem (m : Msg)
  | handler (m : Msg) (res : Option ρ)
  | terror
deriving DecidableEq

/-- A user handler: a one-argument function that either returns a value or
raises (`Except.error`). -/
abbrev Hnd (ρ : Type) := Msg → Except Unit ρ

/-- The value `_call_handler` obtains from `handler(message)` under the bare
`except`: the returned value, or `None` when the handler raised. -/
def resOf (h : Hnd ρ) (m : Msg) : Option ρ :=
  match h m with
  | Except.ok r => some r
  | Except.error _ => none

/-- `Listener._default_handler`: logs and returns the message. -/
def default_handler : Hnd Msg := fun m => Except.ok m

/-- `Listener._call_handler`: run the handler inside `try/except`, and in the
`finally` clause issue `lrem(processing, -1, message)`.  The handler outcome
is absorbed by the bare `except`; a transport error raised by the `lrem`
itself propagates out (`Except.error`), with the removal not performed.
`failRem` selects whether that `lrem` call raises. -/
def callHandler (h : Hnd ρ) (failRem : Bool) (m : Msg) (s : RedisState) :
    Except Unit (Option ρ) × RedisState × List (REvent ρ) :=
  if failRem then
    (Except.error (), s, [REvent.handler m (resOf h m), REvent.terror])
  else
    (Except.ok (resOf h m),
     { s with processing := lremLast s.processing m },
     [REvent.handler m (resOf h m), REvent.lrem m])

/-- `Listener.get_message`: one non-blocking `rpoplpush(lijst, processing)`
inside `try/except generic_error`; on a truthy moved message run
`_call_handler`; return its result, and `None` in every other case.
`failPop` (resp. `failRem`) selects whether the `rpoplpush` (resp. the
`lrem` inside `_call_handler`) raises the transport error. -/
def get_message (h : Hnd ρ) (failPop failRem : Bool) (s : RedisState) :
    Option ρ × RedisState × List (REvent ρ) :=
  if failPop then (none, s, [REvent.terror])
  else
    match lastElem s.queue with
    | none => (none, s, [REvent.popPush none])
    | some m =>
      let s1 : RedisState := ⟨s.queue.dropLast, m :: s.processing⟩
      if truthy m then
        match callHandler h failRem m s1 with
        | (Except.ok res, s2, evs) => (res, s2, REvent.popPush (some m) :: evs)
        | (Except.error _, s2, evs) => (none, s2, REvent.popPush (some m) :: evs)
      else (none, s1, [REvent.popPush (some m)])

/-- One pass of the startup-recovery `while message:` loop body of
`Listener.__init__` (transport kept reliable): `lindex(processing, -1)`;
on a truthy tail, `_call_handler` on it and loop; stop when the tail is
absent or falsy.  `fuel` bounds the iteration count; the loop consumes one
fuel per handled message, and `recover` below supplies enough fuel for the
loop to run to completion, since each handled message shortens the
processing list by one. -/
def recoverLoop (h : Hnd ρ) : Nat → RedisState → RedisState × List (REvent ρ)
  | 0, s => (s, [])
  | fuel + 1, s =>
    match lastElem s.processing with
    | none => (s, [REvent.peek none])
    | some m =>
      if truthy m then
        match callHandler h false m s with
        | (_, s1, evs) =>
          match recoverLoop h fuel s1 with
          | (s2, evs2) => (s2, REvent.peek (some m) :: (evs ++ evs2))
      else (s, [REvent.peek (some m)])

/-- The startup-recovery phase of `Listener.__init__`: run the recovery loop
to completion (the processing list shrinks by one per handled message, so
`length + 1` iterations always reach the exit condition). -/
def recover (h : Hnd ρ) (s : RedisState) : RedisState × List (REvent ρ) :=
  recoverLoop h (s.processing.length + 1) s

/-- The external nondeterminism one iteration of `Listener.listen` is exposed
to: the value of the mutable `active` flag read at the loop guard, and
whether the `brpoplpush` call (resp. the `lrem` inside `_call_handler`)
raises the transport error. -/
structure Iter where
  active : Bool
  tfail : Bool
  tfailRem : Bool
deriving DecidableEq

/-- How a `listen` run ended: the guard read `active = False` (`stopped`),
or the supplied schedule of iterations ran out with the loop still going
(`running`). -/
inductive ListenExit where
  | stopped
  | running
deriving DecidableEq

/-- The body of one `Listener.listen` iteration:
`brpoplpush(lijst, processing, read_time)` inside `try/except generic_error`
(a timeout with no message returns nil; here that is the empty-queue case);
on a truthy message, `_call_handler`.  Transport errors from either call are
caught, so the body always falls through to the next iteration. -/
def listenIter (h : Hnd ρ) (read_time : Nat) (it : Iter) (s : RedisState) :
    RedisState × List (REvent ρ) :=
  if it.tfail then (s, [REvent.terror])
  else
    match lastElem s.queue with
    | none => (s, [REvent.bPopPush read_time none])
    | some m =>
      let s1 : RedisState := ⟨s.queue.dropLast, m :: s.processing⟩
      if truthy m then
        match callHandler h it.tfailRem m s1 with
        | (_, s2, evs) => (s2, REvent.bPopPush read_time (some m) :: evs)
      else (s1, [REvent.bPopPush read_time (some m)])

/-- `Listener.listen`: `while zelf.active:` run one iteration body; the
schedule lists, for each potential iteration, the flag value read at the
guard and the transport faults of that iteration. -/
def listen (h : Hnd ρ) (read_time : Nat) :
    List Iter → RedisState → ListenExit × RedisState × List (REvent ρ)
  | [], s => (ListenExit.running, s, [])
  | it :: rest, s =>
    if it.active then
      match listenIter h read_time it s with
      | (s1, evs) =>
        match listen h read_time rest s1 with
        | (ex, s2, evs2) => (ex, s2, evs ++ evs2)
    else (ListenExit.stopped, s, [])

/-- The atomic store operations the listener issues, as transition labels:
a successful `rpoplpush`/`brpoplpush` move of `m` (`popPush m`), a pop on an
empty source (`popPushNil`, also the `brpoplpush` timeout), a
`lindex(processing, -1)` returning `r` (`peek r`), the post-handling
`lrem(processing, -1, m)` (`remove m`), and an external producer
`lpush(lijst, m)` (`produce m`). -/
inductive LOp where
  | popPush (m : Msg)
  | popPushNil
  | peek (r : Option Msg)
  | remove (m : Msg)
  | produce (m : Msg)
deriving DecidableEq

/-- Guarded semantics of one atomic operation on the store state; `none`
when the guard (the result recorded in the label) does not match the
state. -/
def applyOp : LOp → RedisState → Option RedisState
  | LOp.popPush m, s =>
    match lastElem s.queue with
    | some m' => if m' = m then some ⟨s.queue.dropLast, m :: s.processing⟩ else none
    | none => none
  | LOp.popPushNil, s => if s.queue = [] then some s else none
  | LOp.peek r, s => if lastElem s.processing = r then some s else none
  | LOp.remove m, s => some { s with processing := lremLast s.processing m }
  | LOp.produce m, s => some { s with queue := m :: s.queue }

/-- Run a sequence of atomic operations. -/
def applyOps : List LOp → RedisState → Option RedisState
  | [], s => some s
  | op :: ops, s =>
    match applyOp op s with
    | some s1 => applyOps ops s1
    | none => none

/-- The store operations behind one trace event: handler invocations and
raised (hence effect-free) store calls perform no store transition. -/
def opOfEvent : REvent ρ → List LOp
  | REvent.popPush (some m) => [LOp.popPush m]
  | REvent.popPush none => [LOp.popPushNil]
  | REvent.bPopPush _ (some m) => [LOp.popPush m]
  | REvent.bPopPush _ none => [LOp.popPushNil]
  | REvent.peek r => [LOp.peek r]
  | REvent.lrem m => [LOp.remove m]
  | REvent.handler _ _ => []
  | REvent.terror => []

/-- The store-operation sequence behind a trace. -/
def opsOfEvents : List (REvent ρ) → List LOp
  | [] => []
  | e :: evs => opOfEvent e ++ opsOfEvents evs

/-- A network address of a store instance: host and port. -/
abbrev Endpoint := String × Nat

/-- The sentinel-facing sockets of a `DisconnectingSentinel`: one connection
pool per configured sentinel, `true` when that pool holds an open socket. -/
structure SentinelState where
  pools : List Bool
deriving DecidableEq

/-- `DisconnectingSentinel.disconnect_sentinels`: call
`connection_pool.disconnect()` on every sentinel client, closing all their
sockets. -/
def disconnect_sentinels (st : SentinelState) : SentinelState :=
  ⟨st.pools.map (fun _ => false)⟩

/-- `DisconnectingSentinel.discover_master`: call the inherited discovery
(`superDiscover`, the external `redis.sentinel.Sentinel.discover_master`,
which may open sentinel sockets and either returns the master endpoint or
raises `MasterNotFoundError`), then `disconnect_sentinels()`, then return.
When the inherited call raises, the exception propagates at once and the
`disconnect_sentinels()` line is not reached. -/
def discover_master (superDiscover : SentinelState → Except Unit Endpoint × SentinelState)
    (st : SentinelState) : Except Unit Endpoint × SentinelState :=
  match superDiscover st with
  | (Except.ok ep, st1) => (Except.ok ep, disconnect_sentinels st1)
  | (Except.error e, st1) => (Except.error e, st1)

/-- `DisconnectingSentinel.discover_slaves`: same wrapper shape as
`discover_master`, around the inherited slave discovery. -/
def discover_slaves (superDiscover : SentinelState → Except Unit (List Endpoint) × SentinelState)
    (st : SentinelState) : Except Unit (List Endpoint) × SentinelState :=
  match superDiscover st with
  | (Except.ok eps, st1) => (Except.ok eps, disconnect_sentinels st1)
  | (Except.error e, st1) => (Except.error e, st1)

/-- One replica record as reported by the sentinel discovery protocol: the
fields `filter_slaves` reads. -/
structure SlaveInfo where
  ip : String
  port : Nat
  is_odown : Bool
  is_sdown : Bool
  master_link_status : String
deriving DecidableEq

/-- `DisconnectingSentinel.filter_slaves`: the list comprehension keeping
the `(ip, port)` of each slave that is neither ODOWN nor SDOWN and whose
`master-link-status` is `ok`. -/
def filter_slaves : List SlaveInfo → List Endpoint
  | [] => []
  | s :: rest =>
    if ¬ s.is_odown ∧ ¬ s.is_sdown ∧ s.master_link_status = "ok" then
      (s.ip, s.port) :: filter_slaves rest
    else filter_slaves rest

/-- A replica is healthy, in the words of the spec: not flagged objectively
down, not flagged subjectively down, and with replication-link status
equal to ok. -/
def healthySlave (s : SlaveInfo) : Prop :=
  ¬ s.is_odown ∧ ¬ s.is_sdown ∧ s.master_link_status = "ok"

instance (s : SlaveInfo) : Decidable (healthySlave s) := by
  unfold healthySlave
  infer_instance

/-- A sentinel-backed connection pool: the currently open sockets plus the
configuration it was built with (master name and role), which survives a
`disconnect()`. -/
structure ConnectionPool where
  master_name : String
  is_master : Bool
  connections : List Nat
deriving DecidableEq

/-- `redis.ConnectionPool.disconnect()`: close and discard all pooled
sockets, keeping the pool object (and its configuration) intact. -/
def ConnectionPool.disconnect (p : ConnectionPool) : ConnectionPool :=
  { p with connections := [] }

/-- `DisconnectRedis`: a client holding one connection pool. -/
structure DisconnectRedis where
  connection_pool : ConnectionPool
deriving DecidableEq

/-- `DisconnectRedis.disconnect`: `connection_pool.disconnect()`. -/
def DisconnectRedis.disconnect (c : DisconnectRedis) : DisconnectRedis :=
  { c with connection_pool := c.connection_pool.disconnect }

/-- The two clients a `TwiceRedis` owns: the master-pool-backed write client
and the slave-pool-backed read client. -/
structure TwiceRedis where
  write_client : DisconnectRedis
  read_client : DisconnectRedis
deriving DecidableEq

/-- `TwiceRedis.disconnect`: `write_client.disconnect()` then
`read_client.disconnect()`. -/
def TwiceRedis.disconnect (t : TwiceRedis) : TwiceRedis :=
  ⟨t.write_client.disconnect, t.read_client.disconnect⟩

/-- A heap of Python list objects holding endpoint lists: references are
numbers below `next`, and `store` gives the current contents of each
reference. -/
structure Heap where
  store : Nat → List Endpoint
  next : Nat

/-- `list(sentinels)` in `TwiceRedis.__init__`: allocate a fresh list object
holding a copy of the contents of `r`, returning the new heap and the new
reference. -/
def listCopy (h : Heap) (r : Nat) : Heap × Nat :=
  (⟨fun i => if i = h.next then h.store r else h.store i, h.next + 1⟩, h.next)

/-- `random.shuffle` on the list object `r`: replace its contents in place
by the permutation the random generator chose (`perm`). -/
def shuffleAt (perm : List Endpoint → List Endpoint) (h : Heap) (r : Nat) : Heap :=
  ⟨fun i => if i = r then perm (h.store i) else h.store i, h.next⟩

/-- The treatment of the caller-supplied `sentinels` argument in
`TwiceRedis.__init__`: rebind the local name to `list(sentinels)` and
`random.shuffle` that copy in place; the shuffled copy (returned reference)
is what the sentinel manager is built from. -/
def initSentinels (perm : List Endpoint → List Endpoint) (h : Heap) (sentinelsRef : Nat) :
    Heap × Nat :=
  match listCopy h sentinelsRef with
  | (h1, r) => (shuffleAt perm h1 r, r)

section Lemmas

@[simp]
lemma lastElem_nil : lastElem [] = none := rfl

@[simp]
lemma lastElem_singleton (a : Msg) : lastElem [a] = some a := rfl

@[simp]
lemma lastElem_cons_cons (a b : Msg) (l : List Msg) :
    lastElem (a :: b :: l) = lastElem (b :: l) := rfl

lemma lastElem_eq_none_iff (l : List Msg) : lastElem l = none ↔ l = [] := by
  induction l with
  | nil => simp
  | cons a l ih =>
    cases l with
    | nil => simp
    | cons b t => simpa using ih

lemma eq_dropLast_append_of_lastElem (l : List Msg) (m : Msg)
    (hl : lastElem l = some m) : l = l.dropLast ++ [m] := by
  induction l with
  | nil => simp at hl
  | cons a l ih =>
    cases l with
    | nil =>
      simp at hl
      simp [hl, List.dropLast]
    | cons b t =>
      simp only [lastElem_cons_cons] at hl
      have := ih hl
      calc a :: b :: t = a :: ((b :: t).dropLast ++ [m]) := by rw [← this]
        _ = (a :: b :: t).dropLast ++ [m] := rfl

lemma mem_of_lastElem (l : List Msg) (m : Msg) (hl : lastElem l = some m) :
    m ∈ l := by
  rw [eq_dropLast_append_of_lastElem l m hl]
  simp

@[simp]
lemma eraseFirst_cons_self (m : Msg) (xs : List Msg) :
    eraseFirst m (m :: xs) = xs := by
  simp [eraseFirst]

lemma lremLast_of_lastElem (l : List Msg) (m : Msg) (hl : lastElem l = some m) :
    lremLast l m = l.dropLast := by
  conv_lhs => rw [eq_dropLast_append_of_lastElem l m hl]
  simp [lremLast]

lemma length_lremLast_of_lastElem (l : List Msg) (m : Msg)
    (hl : lastElem l = some m) : (lremLast l m).length + 1 = l.length := by
  rw [lremLast_of_lastElem l m hl]
  conv_rhs => rw [eq_dropLast_append_of_lastElem l m hl]
  simp

lemma mem_eraseFirst_of_ne (a m : Msg) (hne : a ≠ m) (l : List Msg)
    (ha : a ∈ l) : a ∈ eraseFirst m l := by
  induction l with
  | nil => simp at ha
  | cons x xs ih =>
    by_cases hx : x = m
    · subst hx
      simp only [eraseFirst_cons_self]
      rcases List.mem_cons.mp ha with h | h
      · exact absurd h hne
      · exact h
    · simp only [eraseFirst, if_neg hx]
      rcases List.mem_cons.mp ha with h | h
      · exact h ▸ List.mem_cons_self _ _
      · exact List.mem_cons_of_mem _ (ih h)

lemma mem_lremLast_of_ne (a m : Msg) (hne : a ≠ m) (l : List Msg)
    (ha : a ∈ l) : a ∈ lremLast l m := by
  unfold lremLast
  rw [List.mem_reverse]
  exact mem_eraseFirst_of_ne a m hne l.reverse (List.mem_reverse.mpr ha)

lemma applyOps_append (a b : List LOp) (s : RedisState) :
    applyOps (a ++ b) s =
      match applyOps a s with
      | some s1 => applyOps b s1
      | none => none := by
  induction a generalizing s with
  | nil => simp [applyOps]
  | cons op ops ih =>
    simp only [List.cons_append, applyOps]
    cases applyOp op s with
    | none => rfl
    | some s1 => exact ih s1

/-- Every handler invocation in a trace is immediately followed by the
`lrem` of the same message: removal from the processing list is the next
action after the handler has run to completion, whatever its outcome. -/
def handlerFollowed : List (REvent ρ) → Bool
  | [] => true
  | REvent.handler m _ :: rest =>
    (match rest with
     | REvent.lrem m1 :: _ => decide (m1 = m)
     | _ => false) && handlerFollowed rest
  | _ :: rest => handlerFollowed rest

/-- Number of pop-and-push store calls (`rpoplpush` or `brpoplpush`)
recorded in a trace. -/
def countPop : List (REvent ρ) → Nat
  | [] => 0
  | REvent.popPush _ :: rest => countPop rest + 1
  | REvent.bPopPush _ _ :: rest => countPop rest + 1
  | _ :: rest => countPop rest

/-- One behavior the inherited sentinel discovery can have: it connects to
each configured sentinel (opening its socket) and then raises
`MasterNotFoundError` because none of them produced a master. -/
def failingSuperDiscover : SentinelState → Except Unit Endpoint × SentinelState :=
  fun st => (Except.error (), ⟨st.pools.map (fun _ => true)⟩)

lemma mem_processing_applyOp (op : LOp) (s s1 : RedisState) (m : Msg)
    (hstep : applyOp op s = some s1) (hm : m ∈ s.processing)
    (hop : op ≠ LOp.remove m) : m ∈ s1.processing := by
  cases op with
  | popPush m1 =>
    simp only [applyOp] at hstep
    cases hq : lastElem s.queue with
    | none => rw [hq] at hstep; exact absurd hstep (by simp)
    | some m2 =>
      simp only [hq] at hstep
      by_cases he : m2 = m1
      · rw [if_pos he] at hstep
        cases hstep
        exact List.mem_cons_of_mem _ hm
      · rw [if_neg he] at hstep
        exact absurd hstep (by simp)
  | popPushNil =>
    simp only [applyOp] at hstep
    by_cases he : s.queue = []
    · rw [if_pos he] at hstep
      cases hstep
      exact hm
    · rw [if_neg he] at hstep
      exact absurd hstep (by simp)
  | peek r =>
    simp only [applyOp] at hstep
    by_cases he : lastElem s.processing = r
    · rw [if_pos he] at hstep
      cases hstep
      exact hm
    · rw [if_neg he] at hstep
      exact absurd hstep (by simp)
  | remove m1 =>
    simp only [applyOp] at hstep
    cases hstep
    have hne : m ≠ m1 := by
      intro hcontra
      exact hop (by rw [hcontra])
    exact mem_lremLast_of_ne m m1 hne s.processing hm
  | produce m1 =>
    simp only [applyOp] at hstep
    cases hstep
    exact hm

lemma mem_processing_applyOps (ops : List LOp) (s s1 : RedisState) (m : Msg)
    (hrun : applyOps ops s = some s1) (hm : m ∈ s.processing)
    (hops : LOp.remove m ∉ ops) : m ∈ s1.processing := by
  induction ops generalizing s with
  | nil =>
    unfold applyOps at hrun
    cases hrun
    exact hm
  | cons op rest ih =>
    unfold applyOps at hrun
    cases hstep : applyOp op s with
    | none => rw [hstep] at hrun; exact absurd hrun (by simp)
    | some smid =>
      rw [hstep] at hrun
      have hop : op ≠ LOp.remove m := fun hcontra =>
        hops (hcontra ▸ List.mem_cons_self _ _)
      have hrest : LOp.remove m ∉ rest := fun hcontra =>
        hops (List.mem_cons_of_mem _ hcontra)
      exact ih smid hrun (mem_processing_applyOp op s smid m hstep hm hop) hrest

lemma callHandler_ops (h : Hnd ρ) (fr : Bool) (m : Msg) (s : RedisState) :
    applyOps (opsOfEvents (callHandler h fr m s).2.2) s =
      some (callHandler h fr m s).2.1 := by
  cases fr <;> simp [callHandler, opsOfEvents, opOfEvent, applyOps, applyOp]

lemma get_message_ops (h : Hnd ρ) (fp fr : Bool) (s : RedisState) :
    applyOps (opsOfEvents (get_message h fp fr s).2.2) s =
      some (get_message h fp fr s).2.1 := by
  unfold get_message
  cases fp with
  | true => simp [opsOfEvents, applyOps]
  | false =>
    simp only [Bool.false_eq_true, if_false]
    cases hq : lastElem s.queue with
    | none =>
      have hnil : s.queue = [] := (lastElem_eq_none_iff s.queue).mp hq
      simp [opsOfEvents, opOfEvent, applyOps, applyOp, hnil]
    | some m =>
      cases ht : truthy m with
      | false =>
        simp [ht, opsOfEvents, opOfEvent, applyOps, applyOp, hq]
      | true =>
        cases fr <;>
          simp [ht, callHandler, opsOfEvents, opOfEvent, applyOps, applyOp, hq]

lemma listenIter_ops (h : Hnd ρ) (rt : Nat) (it : Iter) (s : RedisState) :
    applyOps (opsOfEvents (listenIter h rt it s).2) s =
      some (listenIter h rt it s).1 := by
  unfold listenIter
  cases htf : it.tfail with
  | true => simp [opsOfEvents, applyOps]
  | false =>
    simp only [Bool.false_eq_true, if_false]
    cases hq : lastElem s.queue with
    | none =>
      have hnil : s.queue = [] := (lastElem_eq_none_iff s.queue).mp hq
      simp [opsOfEvents, opOfEvent, applyOps, applyOp, hnil]
    | some m =>
      cases ht : truthy m with
      | false =>
        simp [ht, opsOfEvents, opOfEvent, applyOps, applyOp, hq]
      | true =>
        cases htr : it.tfailRem with
        | true =>
          simp [ht, callHandler, htr, opsOfEvents, opOfEvent, applyOps, applyOp, hq]
        | false =>
          simp [ht, callHandler, htr, opsOfEvents, opOfEvent, applyOps, applyOp, hq]

lemma opsOfEvents_append (a b : List (REvent ρ)) :
    opsOfEvents (a ++ b) = opsOfEvents a ++ opsOfEvents b := by
  induction a with
  | nil => simp [opsOfEvents]
  | cons e evs ih => simp [opsOfEvents, ih]

lemma listen_ops (h : Hnd ρ) (rt : Nat) (sched : List Iter) (s : RedisState) :
    applyOps (opsOfEvents (listen h rt sched s).2.2) s =
      some (listen h rt sched s).2.1 := by
  induction sched generalizing s with
  | nil => simp [listen, opsOfEvents, applyOps]
  | cons it rest ih =>
    unfold listen
    cases ha : it.active with
    | false => simp [opsOfEvents, applyOps]
    | true =>
      simp only [if_true]
      cases hit : listenIter h rt it s with
      | mk s1 evs =>
        cases hl : listen h rt rest s1 with
        | mk ex rest2 =>
          cases rest2 with
          | mk s2 evs2 =>
            simp only
            rw [opsOfEvents_append, applyOps_append]
            have h1 : applyOps (opsOfEvents evs) s = some s1 := by
              have := listenIter_ops h rt it s
              rw [hit] at this
              exact this
            rw [h1]
            have h2 := ih s1
            rw [hl] at h2
            exact h2

lemma recoverLoop_ops (h : Hnd ρ) (fuel : Nat) (s : RedisState) :
    applyOps (opsOfEvents (recoverLoop h fuel s).2) s =
      some (recoverLoop h fuel s).1 := by
  induction fuel generalizing s with
  | zero => simp [recoverLoop, opsOfEvents, applyOps]
  | succ fuel ih =>
    unfold recoverLoop
    cases hq : lastElem s.processing with
    | none => simp [opsOfEvents, opOfEvent, applyOps, applyOp, hq]
    | some m =>
      cases ht : truthy m with
      | false => simp [ht, opsOfEvents, opOfEvent, applyOps, applyOp, hq]
      | true =>
        simp only [ht, if_true, callHandler, Bool.false_eq_true, if_false]
        have h2 := ih { s with processing := lremLast s.processing m }
        cases hr : recoverLoop h fuel { s with processing := lremLast s.processing m } with
        | mk s2 evs2 =>
          rw [hr] at h2
          simp only at h2
          simp [opsOfEvents, opOfEvent, opsOfEvents_append, applyOps, applyOp, hq, h2]

lemma recover_ops (h : Hnd ρ) (s : RedisState) :
    applyOps (opsOfEvents (recover h s).2) s = some (recover h s).1 :=
  recoverLoop_ops h (s.processing.length + 1) s

@[simp]
lemma handlerFollowed_nil : handlerFollowed ([] : List (REvent ρ)) = true := rfl

@[simp]
lemma handlerFollowed_peek (r : Option Msg) (l : List (REvent ρ)) :
    handlerFollowed (REvent.peek r :: l) = handlerFollowed l := rfl

@[simp]
lemma handlerFollowed_popPush (r : Option Msg) (l : List (REvent ρ)) :
    handlerFollowed (REvent.popPush r :: l) = handlerFollowed l := rfl

@[simp]
lemma handlerFollowed_bPopPush (t : Nat) (r : Option Msg) (l : List (REvent ρ)) :
    handlerFollowed (REvent.bPopPush t r :: l) = handlerFollowed l := rfl

@[simp]
lemma handlerFollowed_lrem (m : Msg) (l : List (REvent ρ)) :
    handlerFollowed (REvent.lrem m :: l) = handlerFollowed l := rfl

@[simp]
lemma handlerFollowed_terror (l : List (REvent ρ)) :
    handlerFollowed (REvent.terror :: l) = handlerFollowed l := rfl

@[simp]
lemma handlerFollowed_handler_lrem (m : Msg) (r : Option ρ) (l : List (REvent ρ)) :
    handlerFollowed (REvent.handler m r :: REvent.lrem m :: l) = handlerFollowed l := by
  simp [handlerFollowed]

lemma handlerFollowed_recoverLoop (h : Hnd ρ) (fuel : Nat) (s : RedisState) :
    handlerFollowed (recoverLoop h fuel s).2 = true := by
  induction fuel generalizing s with
  | zero => simp [recoverLoop]
  | succ fuel ih =>
    unfold recoverLoop
    cases hq : lastElem s.processing with
    | none => simp
    | some m =>
      cases ht : truthy m with
      | false => simp [ht]
      | true =>
        simp only [ht, if_true, callHandler, Bool.false_eq_true, if_false]
        cases hr : recoverLoop h fuel { s with processing := lremLast s.processing m } with
        | mk s2 evs2 =>
          have h2 := ih { s with processing := lremLast s.processing m }
          rw [hr] at h2
          simpa using h2

lemma handlerFollowed_get_message (h : Hnd ρ) (fp : Bool) (s : RedisState) :
    handlerFollowed (get_message h fp false s).2.2 = true := by
  unfold get_message
  cases fp with
  | true => simp
  | false =>
    simp only [Bool.false_eq_true, if_false]
    cases hq : lastElem s.queue with
    | none => simp
    | some m =>
      cases ht : truthy m with
      | false => simp [ht]
      | true => simp [ht, callHandler]

lemma handlerFollowed_listenIter (h : Hnd ρ) (rt : Nat) (it : Iter) (s : RedisState)
    (l : List (REvent ρ)) (htr : it.tfailRem = false) :
    handlerFollowed ((listenIter h rt it s).2 ++ l) = handlerFollowed l := by
  unfold listenIter
  cases htf : it.tfail with
  | true => simp
  | false =>
    simp only [Bool.false_eq_true, if_false]
    cases hq : lastElem s.queue with
    | none => simp
    | some m =>
      cases ht : truthy m with
      | false => simp [ht]
      | true => simp [ht, callHandler, htr]

lemma handlerFollowed_listen (h : Hnd ρ) (rt : Nat) (sched : List Iter) (s : RedisState)
    (hsched : ∀ it ∈ sched, it.tfailRem = false) :
    handlerFollowed (listen h rt sched s).2.2 = true := by
  induction sched generalizing s with
  | nil => simp [listen]
  | cons it rest ih =>
    unfold listen
    cases ha : it.active with
    | false => simp
    | true =>
      simp only [if_true]
      cases hit : listenIter h rt it s with
      | mk s1 evs =>
        cases hl : listen h rt rest s1 with
        | mk ex p =>
          cases p with
          | mk s2 evs2 =>
            simp only
            have hchunk := handlerFollowed_listenIter h rt it s evs2
              (hsched it (List.mem_cons_self _ _))
            rw [hit] at hchunk
            simp only at hchunk
            rw [hchunk]
            have h2 := ih s1 (fun j hj => hsched j (List.mem_cons_of_mem _ hj))
            rw [hl] at h2
            exact h2

lemma recoverLoop_tail (h : Hnd ρ) (fuel : Nat) :
    ∀ s : RedisState, s.processing.length < fuel →
      lastElem (recoverLoop h fuel s).1.processing = none ∨
      lastElem (recoverLoop h fuel s).1.processing = some "" := by
  induction fuel with
  | zero => intro s hs; exact absurd hs (Nat.not_lt_zero _)
  | succ fuel ih =>
    intro s hs
    unfold recoverLoop
    cases hq : lastElem s.processing with
    | none => left; simpa using hq
    | some m =>
      cases ht : truthy m with
      | false =>
        right
        have hm : m = "" := by simpa [truthy] using ht
        simp only [ht, Bool.false_eq_true, if_false]
        rw [← hm]
        exact hq
      | true =>
        simp only [ht, if_true, callHandler, Bool.false_eq_true, if_false]
        have hlen : (lremLast s.processing m).length + 1 = s.processing.length :=
          length_lremLast_of_lastElem _ _ hq
        have hlt : (lremLast s.processing m).length < fuel := by omega
        have := ih { s with processing := lremLast s.processing m } hlt
        cases hr : recoverLoop h fuel { s with processing := lremLast s.processing m } with
        | mk s2 evs2 =>
          rw [hr] at this
          simpa using this

end Lemmas

/-- Claim C7: for every input sequence of replica records, `filter_slaves`
returns exactly the `(host, port)` pairs of the replicas that are neither
flagged objectively down nor subjectively down and whose replication-link
status equals "ok", preserving the input order. -/
theorem C7_filter_slaves_healthy :
    ∀ slaves : List SlaveInfo,
      filter_slaves slaves =
        (slaves.filter (fun s => decide (healthySlave s))).map (fun s => (s.ip, s.port)) ∧
      List.Sublist (filter_slaves slaves) (slaves.map (fun s => (s.ip, s.port))) := by
  intro slaves
  have heq : filter_slaves slaves =
      (slaves.filter (fun s => decide (healthySlave s))).map (fun s => (s.ip, s.port)) := by
    induction slaves with
    | nil => rfl
    | cons s rest ih =>
      rcases s with ⟨ip, port, od, sd, ml⟩
      cases od <;> cases sd <;> by_cases hml : ml = "ok" <;>
        simp [filter_slaves, healthySlave, List.filter_cons, hml, ih]
  refine ⟨heq, ?_⟩
  rw [heq]
  exact List.Sublist.map _ (List.filter_sublist _)

/-- Claim C8: `TwiceRedis.disconnect` is idempotent: any number of
successive calls leaves the client in the same state as one call; after a
call all sockets in both pools are closed while the pool objects (their
configuration) stay intact. -/
theorem C8_disconnect_idempotent :
    ∀ t : TwiceRedis,
      TwiceRedis.disconnect (TwiceRedis.disconnect t) = TwiceRedis.disconnect t ∧
      (∀ n : Nat, TwiceRedis.disconnect^[n + 1] t = TwiceRedis.disconnect t) ∧
      (TwiceRedis.disconnect t).write_client.connection_pool.connections = [] ∧
      (TwiceRedis.disconnect t).read_client.connection_pool.connections = [] ∧
      (TwiceRedis.disconnect t).write_client.connection_pool.master_name =
        t.write_client.connection_pool.master_name ∧
      (TwiceRedis.disconnect t).write_client.connection_pool.is_master =
        t.write_client.connection_pool.is_master ∧
      (TwiceRedis.disconnect t).read_client.connection_pool.master_name =
        t.read_client.connection_pool.master_name ∧
      (TwiceRedis.disconnect t).read_client.connection_pool.is_master =
        t.read_client.connection_pool.is_master := by
  intro t
  refine ⟨rfl, ?_, rfl, rfl, rfl, rfl, rfl, rfl⟩
  intro n
  induction n with
  | zero => rfl
  | succ n ih =>
    rw [Function.iterate_succ_apply', ih]
    rfl

/-- Claim C10: the `TwiceRedis` constructor does not mutate the
caller-supplied sentinels sequence: it shuffles a copy, so after
construction the caller's list object holds the same elements in the same
order, while the local copy holds the shuffled permutation. -/
theorem C10_init_sentinels_frame :
    ∀ (perm : List Endpoint → List Endpoint) (h : Heap) (r : Nat),
      r < h.next →
      (initSentinels perm h r).1.store r = h.store r ∧
      (initSentinels perm h r).1.store (initSentinels perm h r).2 = perm (h.store r) := by
  intro perm h r hr
  have hne : r ≠ h.next := Nat.ne_of_lt hr
  constructor
  · simp [initSentinels, listCopy, shuffleAt, hne]
  · simp [initSentinels, listCopy, shuffleAt]

/-- Witness for C10 at a concrete heap: one valid reference holding one
endpoint, shuffled with the identity permutation. -/
theorem C10_init_sentinels_frame_witness :
    (initSentinels id ⟨fun _ => [("host1", 26379)], 1⟩ 0).1.store 0 = [("host1", 26379)] ∧
    (initSentinels id ⟨fun _ => [("host1", 26379)], 1⟩ 0).1.store
        (initSentinels id ⟨fun _ => [("host1", 26379)], 1⟩ 0).2 = [("host1", 26379)] :=
  C10_init_sentinels_frame id ⟨fun _ => [("host1", 26379)], 1⟩ 0 (by decide)

/-- Claim C6 counterexample: when the inherited discovery raises (no master
found) after having opened a sentinel socket, `discover_master` propagates
the exception before reaching the `disconnect_sentinels()` line, so a
sentinel socket stays open when control returns to the caller.  This
refutes the claim that the sockets are released whether the call succeeds
or fails. -/
theorem C6_failure_leaves_sockets_open :
    (discover_master failingSuperDiscover ⟨[false]⟩).2.pools = [true] ∧
    ¬ (∀ b ∈ (discover_master failingSuperDiscover ⟨[false]⟩).2.pools, b = false) := by
  refine ⟨rfl, ?_⟩
  intro hall
  have hmem : (true : Bool) ∈ (discover_master failingSuperDiscover ⟨[false]⟩).2.pools := by
    have h1 : (discover_master failingSuperDiscover ⟨[false]⟩).2.pools = [true] := rfl
    rw [h1]
    exact List.mem_cons_self _ _
  exact absurd (hall true hmem) (by simp)

/-- Claim C6 (amended): after every successful resolution call
(`discover_master` or `discover_slaves`), all sentinel sockets have been
released (`disconnect_sentinels` has run on the state the inherited
discovery left) before control returns; on a failing call the exception
propagates before the release. -/
theorem C6_success_releases_sockets :
    (∀ (sd : SentinelState → Except Unit Endpoint × SentinelState)
       (st : SentinelState) (ep : Endpoint) (st2 : SentinelState),
       discover_master sd st = (Except.ok ep, st2) →
       st2 = disconnect_sentinels (sd st).2 ∧ ∀ b ∈ st2.pools, b = false) ∧
    (∀ (sd : SentinelState → Except Unit (List Endpoint) × SentinelState)
       (st : SentinelState) (eps : List Endpoint) (st2 : SentinelState),
       discover_slaves sd st = (Except.ok eps, st2) →
       st2 = disconnect_sentinels (sd st).2 ∧ ∀ b ∈ st2.pools, b = false) := by
  constructor
  · intro sd st ep st2 hcall
    unfold discover_master at hcall
    cases hsd : sd st with
    | mk res st1 =>
      rw [hsd] at hcall
      cases res with
      | ok ep1 =>
        simp only at hcall
        have h2 : st2 = disconnect_sentinels st1 := by
          have := congrArg Prod.snd hcall
          simpa using this.symm
        refine ⟨h2, ?_⟩
        intro b hb
        rw [h2] at hb
        simp only [disconnect_sentinels, List.mem_map] at hb
        obtain ⟨_, _, hfb⟩ := hb
        exact hfb.symm
      | error e => simp at hcall
  · intro sd st eps st2 hcall
    unfold discover_slaves at hcall
    cases hsd : sd st with
    | mk res st1 =>
      rw [hsd] at hcall
      cases res with
      | ok eps1 =>
        simp only at hcall
        have h2 : st2 = disconnect_sentinels st1 := by
          have := congrArg Prod.snd hcall
          simpa using this.symm
        refine ⟨h2, ?_⟩
        intro b hb
        rw [h2] at hb
        simp only [disconnect_sentinels, List.mem_map] at hb
        obtain ⟨_, _, hfb⟩ := hb
        exact hfb.symm
      | error e => simp at hcall

/-- Witness for the amended C6 at a concrete inherited discovery that
succeeds while holding an open sentinel socket. -/
theorem C6_success_releases_sockets_witness :
    (⟨[false]⟩ : SentinelState) = disconnect_sentinels ⟨[true]⟩ ∧
    ∀ b ∈ (⟨[false]⟩ : SentinelState).pools, b = false :=
  C6_success_releases_sockets.1 (fun _ => (Except.ok ("master33", 6379), ⟨[true]⟩))
    ⟨[true]⟩ ("master33", 6379) ⟨[false]⟩ rfl

/-- Claim C9: for a message with a falsy payload (the empty string),
`get_message` moves it from the queue into the processing list but returns
None without invoking the handler and without removing it; startup recovery
stops as soon as the processing-list tail is such a falsy message, leaving
it there unhandled. -/
theorem C9_falsy_message_left_in_processing (ρ : Type) :
    (∀ (h : Hnd ρ) (s : RedisState), lastElem s.queue = some "" →
       get_message h false false s =
         (none, ⟨s.queue.dropLast, "" :: s.processing⟩, [REvent.popPush (some "")])) ∧
    (∀ (h : Hnd ρ) (s : RedisState), lastElem s.processing = some "" →
       recover h s = (s, [REvent.peek (some "")])) := by
  constructor
  · intro h s hq
    unfold get_message
    simp [hq, truthy]
  · intro h s hq
    unfold recover recoverLoop
    simp [hq, truthy]

/-- Witness for C9 at concrete states: the queue (resp. the processing
list) holding exactly one empty-string message. -/
theorem C9_falsy_message_witness :
    get_message default_handler false false ⟨[""], []⟩ =
      (none, ⟨[], [""]⟩, [REvent.popPush (some "")]) ∧
    recover default_handler ⟨[], [""]⟩ = (⟨[], [""]⟩, [REvent.peek (some "")]) :=
  ⟨(C9_falsy_message_left_in_processing Msg).1 default_handler ⟨[""], []⟩ rfl,
   (C9_falsy_message_left_in_processing Msg).2 default_handler ⟨[], [""]⟩ rfl⟩

/-- Claim C4 counterexample: with the queue holding one empty-string
message, `get_message` performs the pop-and-push (the message IS moved, as
the trace records) yet invokes no handler, removes nothing, and leaves the
moved message in the processing list — contradicting the claim that
whenever a message was moved the handler runs and the message is removed
afterwards. -/
theorem C4_falsy_moved_not_handled :
    get_message default_handler false false ⟨[""], []⟩ =
      (none, ⟨[], [""]⟩, [REvent.popPush (some "")]) ∧
    (get_message default_handler false false ⟨[""], []⟩).2.1.processing ≠ [] := by
  decide

/-- Claim C4 (amended): `get_message` performs exactly one pop-and-push
attempt; if a truthy message was moved (and no transport error occurs) it
invokes the handler, removes the message from the processing list
afterwards, and returns the handler result; if no message was available it
returns None with the state unchanged; a falsy moved message yields None
and stays in the processing list; and any transport error (from the
pop-and-push or from the removal) is caught and yields None rather than an
exception. -/
theorem C4_get_message_spec (ρ : Type) :
    (∀ (h : Hnd ρ) (s : RedisState) (m : Msg),
       lastElem s.queue = some m → truthy m = true →
       get_message h false false s =
         (resOf h m, ⟨s.queue.dropLast, lremLast (m :: s.processing) m⟩,
          [REvent.popPush (some m), REvent.handler m (resOf h m), REvent.lrem m])) ∧
    (∀ (h : Hnd ρ) (s : RedisState), lastElem s.queue = none →
       get_message h false false s = (none, s, [REvent.popPush none])) ∧
    (∀ (h : Hnd ρ) (fr : Bool) (s : RedisState),
       get_message h true fr s = (none, s, [REvent.terror])) ∧
    (∀ (h : Hnd ρ) (s : RedisState) (m : Msg),
       lastElem s.queue = some m → truthy m = true →
       (get_message h false true s).1 = none ∧
       (get_message h false true s).2.2 =
         [REvent.popPush (some m), REvent.handler m (resOf h m), REvent.terror]) ∧
    (∀ (h : Hnd ρ) (fr : Bool) (s : RedisState),
       countPop (get_message h false fr s).2.2 = 1) ∧
    (∀ (h : Hnd ρ) (s : RedisState), lastElem s.queue = some "" →
       get_message h false false s =
         (none, ⟨s.queue.dropLast, "" :: s.processing⟩, [REvent.popPush (some "")])) := by
  refine ⟨?_, ?_, ?_, ?_, ?_, ?_⟩
  · intro h s m hq ht
    unfold get_message
    simp [hq, ht, callHandler]
  · intro h s hq
    unfold get_message
    simp [hq]
  · intro h fr s
    unfold get_message
    simp
  · intro h s m hq ht
    unfold get_message
    simp [hq, ht, callHandler]
  · intro h fr s
    unfold get_message
    cases hq : lastElem s.queue with
    | none => simp [countPop]
    | some m =>
      cases ht : truthy m with
      | false => simp [ht, countPop]
      | true => cases fr <;> simp [ht, callHandler, countPop]
  · intro h s hq
    unfold get_message
    simp [hq, truthy]

/-- Witness for the amended C4 at a concrete queue holding one truthy
message, with the default handler. -/
theorem C4_get_message_spec_witness :
    get_message default_handler false false ⟨["a"], []⟩ =
      (some "a", ⟨[], []⟩, [REvent.popPush (some "a"), REvent.handler "a" (some "a"),
        REvent.lrem "a"]) :=
  (C4_get_message_spec Msg).1 default_handler ⟨["a"], []⟩ "a" rfl rfl

/-- Claim C3 counterexample: startup recovery on a processing list whose
tail is the empty-string message stops at once: no handler call and no
removal happen, and a tail element is still present afterwards — refuting
the claim that whenever a tail element is present the handler is invoked on
it and the loop repeats until the tail is empty. -/
theorem C3_falsy_tail_not_recovered :
    recover default_handler ⟨[], [""]⟩ = (⟨[], [""]⟩, [REvent.peek (some "")]) ∧
    lastElem (recover default_handler ⟨[], [""]⟩).1.processing ≠ none := by
  decide

/-- Claim C3 (amended): startup recovery repeatedly inspects the tail of
the processing list without removing it; whenever a truthy (non-empty) tail
element is present it invokes the handler on it and then removes exactly
that one tail occurrence, repeating on the shortened list; it stops when
the tail is absent or falsy (so with an empty processing list it is a no-op
with no handler call and no removal); after recovery the tail is absent or
falsy. -/
theorem C3_recover_spec (ρ : Type) :
    (∀ (h : Hnd ρ) (s : RedisState), s.processing = [] →
       recover h s = (s, [REvent.peek none])) ∧
    (∀ (h : Hnd ρ) (s : RedisState) (m : Msg),
       lastElem s.processing = some m → truthy m = true →
       recover h s =
         ((recover h ⟨s.queue, lremLast s.processing m⟩).1,
          REvent.peek (some m) :: REvent.handler m (resOf h m) :: REvent.lrem m ::
            (recover h ⟨s.queue, lremLast s.processing m⟩).2)) ∧
    (∀ (h : Hnd ρ) (s : RedisState), lastElem s.processing = some "" →
       recover h s = (s, [REvent.peek (some "")])) ∧
    (∀ (h : Hnd ρ) (s : RedisState),
       lastElem (recover h s).1.processing = none ∨
       lastElem (recover h s).1.processing = some "") ∧
    (∀ (l : List Msg) (m : Msg), lastElem l = some m → lremLast l m = l.dropLast) := by
  refine ⟨?_, ?_, ?_, ?_, lremLast_of_lastElem⟩
  · intro h s hp
    unfold recover recoverLoop
    simp [hp, lastElem]
  · intro h s m hq ht
    have hlen : (lremLast s.processing m).length + 1 = s.processing.length :=
      length_lremLast_of_lastElem _ _ hq
    unfold recover
    rw [← hlen]
    simp only [recoverLoop, hq, ht, if_true, callHandler, Bool.false_eq_true, if_false]
    cases hr : recoverLoop h ((lremLast s.processing m).length + 1)
        { s with processing := lremLast s.processing m } with
    | mk s2 evs2 =>
      have hr2 : recoverLoop h ((lremLast s.processing m).length + 1)
          (⟨s.queue, lremLast s.processing m⟩ : RedisState) = (s2, evs2) := hr
      simp [hr, hr2]
  · intro h s hq
    unfold recover recoverLoop
    simp [hq, truthy]
  · intro h s
    exact recoverLoop_tail h (s.processing.length + 1) s (Nat.lt_succ_self _)

/-- Witness for the amended C3 at concrete states: an empty processing
list (no-op conjunct) and a processing list holding one truthy message
(one-iteration unfolding conjunct). -/
theorem C3_recover_spec_witness :
    recover default_handler ⟨[], []⟩ = (⟨[], []⟩, [REvent.peek none]) ∧
    recover default_handler ⟨[], ["a"]⟩ =
      ((recover default_handler ⟨[], []⟩).1,
       REvent.peek (some "a") :: REvent.handler "a" (some "a") :: REvent.lrem "a" ::
         (recover default_handler ⟨[], []⟩).2) :=
  ⟨(C3_recover_spec Msg).1 default_handler ⟨[], []⟩ rfl,
   (C3_recover_spec Msg).2.1 default_handler ⟨[], ["a"]⟩ "a" rfl rfl⟩

/-- Claim C2: for every message processed by the listener (via startup
recovery, `get_message`, or `listen`), the `lrem` removal from the
processing list is the action immediately after the handler invocation,
whether the handler returned normally or raised (the traces satisfy
`handlerFollowed`, with the `lrem` call itself not failing); and
`_call_handler` returns normally for every handler outcome — a handler
exception is caught and never re-raised to the caller. -/
theorem C2_removal_after_handler (ρ : Type) :
    (∀ (h : Hnd ρ) (s : RedisState), handlerFollowed (recover h s).2 = true) ∧
    (∀ (h : Hnd ρ) (fp : Bool) (s : RedisState),
       handlerFollowed (get_message h fp false s).2.2 = true) ∧
    (∀ (h : Hnd ρ) (rt : Nat) (sched : List Iter) (s : RedisState),
       (∀ it ∈ sched, it.tfailRem = false) →
       handlerFollowed (listen h rt sched s).2.2 = true) ∧
    (∀ (h : Hnd ρ) (m : Msg) (s : RedisState),
       (callHandler h false m s).1 = Except.ok (resOf h m)) := by
  refine ⟨?_, handlerFollowed_get_message, handlerFollowed_listen, ?_⟩
  · intro h s
    exact handlerFollowed_recoverLoop h (s.processing.length + 1) s
  · intro h m s
    simp [callHandler]

/-- Witness for C2: a raising handler on a one-message queue and a
one-iteration listen schedule; the handler exception is absorbed and each
handler event is immediately followed by its removal. -/
theorem C2_removal_after_handler_witness :
    handlerFollowed (get_message (fun _ => Except.error () : Hnd Unit) false false
      (⟨["a"], []⟩ : RedisState)).2.2 = true ∧
    handlerFollowed (listen (fun _ => Except.error () : Hnd Unit) 5 [⟨true, false, false⟩]
      (⟨["a"], []⟩ : RedisState)).2.2 = true ∧
    (callHandler (fun _ => Except.error () : Hnd Unit) false "a" (⟨[], ["a"]⟩ : RedisState)).1 =
      Except.ok (none : Option Unit) :=
  ⟨(C2_removal_after_handler Unit).2.1 (fun _ => Except.error ()) false ⟨["a"], []⟩,
   (C2_removal_after_handler Unit).2.2.1 (fun _ => Except.error ()) 5
     [⟨true, false, false⟩] ⟨["a"], []⟩ (by decide),
   (C2_removal_after_handler Unit).2.2.2 (fun _ => Except.error ()) "a" ⟨[], ["a"]⟩⟩

/-- Claim C5: the listen loop runs while the `active` flag read at the
guard is true: it exits with `stopped` exactly when some scheduled
iteration read `active = false` (in particular, with `active` true
throughout, no transport error, timeout, or message makes it exit); and
every blocking pop-and-push it issues carries the bounded wait
`read_time`. -/
theorem C5_listen_loop (ρ : Type) :
    (∀ (h : Hnd ρ) (rt : Nat) (sched : List Iter) (s : RedisState),
       (listen h rt sched s).1 = ListenExit.stopped ↔ ∃ it ∈ sched, it.active = false) ∧
    (∀ (h : Hnd ρ) (rt : Nat) (sched : List Iter) (s : RedisState) (t : Nat)
       (r : Option Msg),
       REvent.bPopPush t r ∈ (listen h rt sched s).2.2 → t = rt) ∧
    (∀ (h : Hnd ρ) (rt : Nat) (sched : List Iter) (s : RedisState),
       (∀ it ∈ sched, it.active = true) → (listen h rt sched s).1 = ListenExit.running) := by
  have hmem : ∀ (h : Hnd ρ) (rt : Nat) (it : Iter) (s : RedisState) (t : Nat)
      (r : Option Msg), REvent.bPopPush t r ∈ (listenIter h rt it s).2 → t = rt := by
    intro h rt it s t r hin
    unfold listenIter at hin
    cases htf : it.tfail with
    | true => simp [htf] at hin
    | false =>
      simp only [htf, Bool.false_eq_true, if_false] at hin
      cases hq : lastElem s.queue with
      | none =>
        simp only [hq] at hin
        simp at hin
        exact hin.1
      | some m =>
        simp only [hq] at hin
        cases ht : truthy m with
        | false =>
          simp only [ht, Bool.false_eq_true, if_false] at hin
          simp at hin
          exact hin.1
        | true =>
          simp only [ht, if_true] at hin
          cases htr : it.tfailRem with
          | true =>
            simp only [htr, callHandler, if_true] at hin
            simp at hin
            exact hin.1
          | false =>
            simp only [htr, callHandler, Bool.false_eq_true, if_false] at hin
            simp at hin
            exact hin.1
  refine ⟨?_, ?_, ?_⟩
  · intro h rt sched s
    induction sched generalizing s with
    | nil => simp [listen]
    | cons it rest ih =>
      unfold listen
      cases ha : it.active with
      | false =>
        simp only [Bool.false_eq_true, if_false]
        constructor
        · intro _
          exact ⟨it, List.mem_cons_self _ _, ha⟩
        · intro _
          trivial
      | true =>
        simp only [if_true]
        cases hit : listenIter h rt it s with
        | mk s1 evs =>
          cases hl : listen h rt rest s1 with
          | mk ex p =>
            cases p with
            | mk s2 evs2 =>
              simp only
              have := ih s1
              rw [hl] at this
              simp only at this
              rw [this]
              constructor
              · intro ⟨j, hj, hja⟩
                exact ⟨j, List.mem_cons_of_mem _ hj, hja⟩
              · intro ⟨j, hj, hja⟩
                rcases List.mem_cons.mp hj with hj1 | hj1
                · rw [hj1] at hja
                  rw [hja] at ha
                  cases ha
                · exact ⟨j, hj1, hja⟩
  · intro h rt sched s t r hin
    induction sched generalizing s with
    | nil => simp [listen] at hin
    | cons it rest ih =>
      unfold listen at hin
      cases ha : it.active with
      | false =>
        rw [ha] at hin
        simp at hin
      | true =>
        rw [ha] at hin
        simp only [if_true] at hin
        cases hit : listenIter h rt it s with
        | mk s1 evs =>
          rw [hit] at hin
          cases hl : listen h rt rest s1 with
          | mk ex p =>
            cases p with
            | mk s2 evs2 =>
              rw [hl] at hin
              simp only [List.mem_append] at hin
              rcases hin with hin | hin
              · have := hmem h rt it s t r
                rw [hit] at this
                exact this hin
              · have := ih s1
                rw [hl] at this
                exact this hin
  · intro h rt sched s hall
    induction sched generalizing s with
    | nil => simp [listen]
    | cons it rest ih =>
      unfold listen
      rw [hall it (List.mem_cons_self _ _)]
      simp only [if_true]
      cases hit : listenIter h rt it s with
      | mk s1 evs =>
        cases hl : listen h rt rest s1 with
        | mk ex p =>
          cases p with
          | mk s2 evs2 =>
            simp only
            have := ih s1 (fun j hj => hall j (List.mem_cons_of_mem _ hj))
            rw [hl] at this
            exact this

/-- Witness for C5: a schedule whose iterations all read `active = true`
(with a transport error and a timeout among them) keeps the loop running,
and a schedule containing an `active = false` read stops it. -/
theorem C5_listen_loop_witness :
    (listen default_handler 5 [⟨true, true, false⟩, ⟨true, false, false⟩]
      (⟨[], []⟩ : RedisState)).1 = ListenExit.running ∧
    (listen default_handler 5 [⟨true, false, false⟩, ⟨false, false, false⟩]
      (⟨["a"], []⟩ : RedisState)).1 = ListenExit.stopped :=
  ⟨(C5_listen_loop Msg).2.2 default_handler 5 [⟨true, true, false⟩, ⟨true, false, false⟩]
     ⟨[], []⟩ (by decide),
   ((C5_listen_loop Msg).1 default_handler 5 [⟨true, false, false⟩, ⟨false, false, false⟩]
     ⟨["a"], []⟩).mpr ⟨⟨false, false, false⟩, by decide, rfl⟩⟩

/-- Claim C1: a message is moved from the queue to the processing list by
the single atomic pop-and-push step `LOp.popPush`: in the state before the
step the message is in the queue, in the state right after it is in the
processing list, and it stays in the processing list through every
subsequent interleaved operation until an `LOp.remove` of it runs — so at
no observable instant between the pop and the post-handling removal is it
absent from both lists.  The remaining conjuncts tie the code to the
transition system: the traces of `get_message`, `listen` and the startup
recovery replay as sequences of exactly these atomic operations. -/
theorem C1_atomic_move_invariant :
    (∀ (s0 s1 s2 : RedisState) (m : Msg) (ops : List LOp),
       applyOp (LOp.popPush m) s0 = some s1 →
       applyOps ops s1 = some s2 →
       LOp.remove m ∉ ops →
       m ∈ s0.queue ∧ m ∈ s1.processing ∧ m ∈ s2.processing) ∧
    (∀ (ρ : Type) (h : Hnd ρ) (fp fr : Bool) (s : RedisState),
       applyOps (opsOfEvents (get_message h fp fr s).2.2) s =
         some (get_message h fp fr s).2.1) ∧
    (∀ (ρ : Type) (h : Hnd ρ) (rt : Nat) (sched : List Iter) (s : RedisState),
       applyOps (opsOfEvents (listen h rt sched s).2.2) s =
         some (listen h rt sched s).2.1) ∧
    (∀ (ρ : Type) (h : Hnd ρ) (s : RedisState),
       applyOps (opsOfEvents (recover h s).2) s = some (recover h s).1) := by
  refine ⟨?_, fun ρ => get_message_ops, fun ρ => listen_ops, fun ρ => recover_ops⟩
  intro s0 s1 s2 m ops hpop hrun hnorem
  have hstep := hpop
  simp only [applyOp] at hstep
  cases hq : lastElem s0.queue with
  | none => rw [hq] at hstep; exact absurd hstep (by simp)
  | some m2 =>
    simp only [hq] at hstep
    by_cases he : m2 = m
    · rw [if_pos he] at hstep
      cases hstep
      subst he
      refine ⟨mem_of_lastElem _ _ hq, List.mem_cons_self _ _, ?_⟩
      exact mem_processing_applyOps ops _ s2 m2 hrun (List.mem_cons_self _ _) hnorem
    · rw [if_neg he] at hstep
      exact absurd hstep (by simp)

/-- Witness for C1: message "a" is popped from a one-element queue, then a
peek, a removal of a different message and a producer push are interleaved;
"a" is in the queue before, and in the processing list at every instant
after, the atomic move. -/
theorem C1_atomic_move_invariant_witness :
    "a" ∈ (⟨["a"], []⟩ : RedisState).queue ∧
    "a" ∈ (⟨[], ["a"]⟩ : RedisState).processing ∧
    "a" ∈ (⟨["c"], ["a"]⟩ : RedisState).processing :=
  C1_atomic_move_invariant.1 ⟨["a"], []⟩ ⟨[], ["a"]⟩ ⟨["c"], ["a"]⟩ "a"
    [LOp.peek (some "a"), LOp.remove "b", LOp.produce "c"]
    (by decide) (by decide) (by decide)
